import Mathlib

set_option maxHeartbeats 1000000

/-
Shallow embedding of prow/pjutil/pjutil.go (package pjutil).
The kube and config package types are not part of the source slice; their
record shapes are modelled from the specification's data model (section 3),
keeping exactly the fields that pjutil.go reads or writes.
Go machine integers never overflow in this code (they are only copied or
rendered in decimal), so they are modelled as Int; time instants are
modelled as Nat (0 is the zero, unset instant, and time.After is strict
greater-than).
-/

/-- Modelled from the spec: kube.EnvVar, the execution platform's serialized
environment entry (an ordered name/value record). -/
structure EnvVar where
  name : String
  value : String
deriving DecidableEq

/-- Modelled from the spec: kube.Container, one container template of a pod
spec; pjutil.go reads and writes its name and environment list, and copies
the rest of the record by value (represented here by the image field). -/
structure Container where
  name : String
  image : String
  env : List EnvVar
deriving DecidableEq

/-- Modelled from the spec: kube.PodSpec, the container execution template —
a restart policy and an ordered container list. -/
structure PodSpec where
  restartPolicy : String
  containers : List Container
deriving DecidableEq

/-- Modelled from the spec: kube.Pull, one pull-request descriptor (number
and commit SHA). -/
structure Pull where
  number : Int
  sha : String
deriving DecidableEq

/-- Modelled from the spec: kube.Refs, the source-control reference record:
organization, repository, base branch ref, base commit SHA, and an ordered
sequence of pull descriptors. -/
structure Refs where
  org : String
  repo : String
  baseRef : String
  baseSHA : String
  pulls : List Pull
deriving DecidableEq

/-- Modelled from the spec: the canonical string serialization of a Refs
value used for the PULL_REFS environment value (kube.Refs.String is outside
the source slice): base ref and SHA, then each pull's number and SHA. -/
def Refs.refString (r : Refs) : String :=
  r.baseRef ++ ":" ++ r.baseSHA ++
    String.join (r.pulls.map (fun pu => "," ++ toString pu.number ++ ":" ++ pu.sha))

/-- Modelled from the spec: the zero Refs value a Periodic spec carries
(Go's zero value for kube.Refs). -/
def emptyRefs : Refs := ⟨"", "", "", "", []⟩

/-- Modelled from the spec: kube.ProwJobType, the job-type tag with the four
constants PresubmitJob, PostsubmitJob, PeriodicJob, BatchJob. -/
inductive JobType where
  | presubmitJob
  | postsubmitJob
  | periodicJob
  | batchJob
deriving DecidableEq

/-- Modelled from the spec: the string form of a job-type tag, as used for
the job-type label on an execution unit. -/
def JobType.asString : JobType → String
  | .presubmitJob => "presubmit"
  | .postsubmitJob => "postsubmit"
  | .periodicJob => "periodic"
  | .batchJob => "batch"

/-- Modelled from the spec: kube.ProwJobState, the lifecycle state of a job
instance (Triggered, Pending, Success, Failure, Error, Aborted). -/
inductive ProwJobState where
  | triggeredState
  | pendingState
  | successState
  | failureState
  | errorState
  | abortedState
deriving DecidableEq

/-- Modelled from the spec: kube.ProwJobAgent is a string; the container
based agent constant is kube.KubernetesAgent. -/
def kubernetesAgent : String := "kubernetes"

/-- Modelled from the spec: kube.ObjectMeta — name, labels and annotations
(string-keyed mappings, modelled as association lists with unique keys). -/
structure ObjectMeta where
  name : String
  labels : List (String × String)
  annotations : List (String × String)
deriving DecidableEq

/-- Modelled from the spec: kube.ProwJobStatus — start timestamp and
lifecycle state. -/
structure ProwJobStatus where
  startTime : Nat
  state : ProwJobState
deriving DecidableEq

/-- Modelled from the spec: kube.ProwJobSpec, the materialized description
of one runnable unit. The podSpec field is the optional container execution
template (none models Go's zero value, i.e. no template carried); the
runAfterSuccess field makes the type recursive. -/
inductive ProwJobSpec where
  | mk (type : JobType) (job : String) (refs : Refs) (report : Bool)
      (context : String) (rerunCommand : String) (maxConcurrency : Int)
      (agent : String) (podSpec : Option PodSpec)
      (runAfterSuccess : List ProwJobSpec)

def ProwJobSpec.type : ProwJobSpec → JobType
  | .mk t _ _ _ _ _ _ _ _ _ => t

def ProwJobSpec.job : ProwJobSpec → String
  | .mk _ j _ _ _ _ _ _ _ _ => j

def ProwJobSpec.refs : ProwJobSpec → Refs
  | .mk _ _ r _ _ _ _ _ _ _ => r

def ProwJobSpec.report : ProwJobSpec → Bool
  | .mk _ _ _ rep _ _ _ _ _ _ => rep

def ProwJobSpec.context : ProwJobSpec → String
  | .mk _ _ _ _ c _ _ _ _ _ => c

def ProwJobSpec.rerunCommand : ProwJobSpec → String
  | .mk _ _ _ _ _ rc _ _ _ _ => rc

def ProwJobSpec.maxConcurrency : ProwJobSpec → Int
  | .mk _ _ _ _ _ _ mc _ _ _ => mc

def ProwJobSpec.agent : ProwJobSpec → String
  | .mk _ _ _ _ _ _ _ a _ _ => a

def ProwJobSpec.podSpec : ProwJobSpec → Option PodSpec
  | .mk _ _ _ _ _ _ _ _ ps _ => ps

def ProwJobSpec.runAfterSuccess : ProwJobSpec → List ProwJobSpec
  | .mk _ _ _ _ _ _ _ _ _ ras => ras

@[simp] theorem ProwJobSpec.type_mk (t j r rep c rc mc a ps ras) :
    (ProwJobSpec.mk t j r rep c rc mc a ps ras).type = t := rfl

@[simp] theorem ProwJobSpec.job_mk (t j r rep c rc mc a ps ras) :
    (ProwJobSpec.mk t j r rep c rc mc a ps ras).job = j := rfl

@[simp] theorem ProwJobSpec.refs_mk (t j r rep c rc mc a ps ras) :
    (ProwJobSpec.mk t j r rep c rc mc a ps ras).refs = r := rfl

@[simp] theorem ProwJobSpec.report_mk (t j r rep c rc mc a ps ras) :
    (ProwJobSpec.mk t j r rep c rc mc a ps ras).report = rep := rfl

@[simp] theorem ProwJobSpec.context_mk (t j r rep c rc mc a ps ras) :
    (ProwJobSpec.mk t j r rep c rc mc a ps ras).context = c := rfl

@[simp] theorem ProwJobSpec.rerunCommand_mk (t j r rep c rc mc a ps ras) :
    (ProwJobSpec.mk t j r rep c rc mc a ps ras).rerunCommand = rc := rfl

@[simp] theorem ProwJobSpec.maxConcurrency_mk (t j r rep c rc mc a ps ras) :
    (ProwJobSpec.mk t j r rep c rc mc a ps ras).maxConcurrency = mc := rfl

@[simp] theorem ProwJobSpec.agent_mk (t j r rep c rc mc a ps ras) :
    (ProwJobSpec.mk t j r rep c rc mc a ps ras).agent = a := rfl

@[simp] theorem ProwJobSpec.podSpec_mk (t j r rep c rc mc a ps ras) :
    (ProwJobSpec.mk t j r rep c rc mc a ps ras).podSpec = ps := rfl

@[simp] theorem ProwJobSpec.runAfterSuccess_mk (t j r rep c rc mc a ps ras) :
    (ProwJobSpec.mk t j r rep c rc mc a ps ras).runAfterSuccess = ras := rfl

/-- Modelled from the spec: kube.ProwJob, one concrete job instance. -/
structure ProwJob where
  apiVersion : String
  kind : String
  metadata : ObjectMeta
  spec : ProwJobSpec
  status : ProwJobStatus

/-- Modelled from the spec: kube.Pod, the execution unit handed to the
container orchestration platform. -/
structure Pod where
  metadata : ObjectMeta
  spec : PodSpec

/-- Modelled from the spec: a Go string-keyed map update m[k] = v, on the
association-list model of a map: replace the value at an existing key,
otherwise add the binding at the end. -/
def mapInsert {α : Type} : List (String × α) → String → α → List (String × α)
  | [], k, v => [(k, v)]
  | (k1, v1) :: rest, k, v =>
    if k1 = k then (k, v) :: rest else (k1, v1) :: mapInsert rest k v

/-- Modelled from the spec: a Go map read m[k] that distinguishes a missing
key (none) from a present one. -/
def mapLookup {α : Type} : List (String × α) → String → Option α
  | [], _ => none
  | (k1, v1) :: rest, k => if k1 = k then some v1 else mapLookup rest k

/-- Modelled from the spec: config.Presubmit — name, agent, reporting
context, rerun command, skip-report flag, maximum concurrency, optional
container execution template (a nil-able pointer in the source config),
and the run-after-success chain of further presubmits. -/
inductive Presubmit where
  | mk (name : String) (agent : String) (context : String)
      (rerunCommand : String) (skipReport : Bool) (maxConcurrency : Int)
      (spec : Option PodSpec) (runAfterSuccess : List Presubmit)

def Presubmit.name : Presubmit → String
  | .mk n _ _ _ _ _ _ _ => n

def Presubmit.agent : Presubmit → String
  | .mk _ a _ _ _ _ _ _ => a

def Presubmit.context : Presubmit → String
  | .mk _ _ c _ _ _ _ _ => c

def Presubmit.rerunCommand : Presubmit → String
  | .mk _ _ _ rc _ _ _ _ => rc

def Presubmit.skipReport : Presubmit → Bool
  | .mk _ _ _ _ sr _ _ _ => sr

def Presubmit.maxConcurrency : Presubmit → Int
  | .mk _ _ _ _ _ mc _ _ => mc

def Presubmit.spec : Presubmit → Option PodSpec
  | .mk _ _ _ _ _ _ sp _ => sp

def Presubmit.runAfterSuccess : Presubmit → List Presubmit
  | .mk _ _ _ _ _ _ _ ras => ras

/-- Modelled from the spec: config.Postsubmit — name, agent, maximum
concurrency, optional container execution template, and the
run-after-success chain of further postsubmits. -/
inductive Postsubmit where
  | mk (name : String) (agent : String) (maxConcurrency : Int)
      (spec : Option PodSpec) (runAfterSuccess : List Postsubmit)

def Postsubmit.name : Postsubmit → String
  | .mk n _ _ _ _ => n

def Postsubmit.agent : Postsubmit → String
  | .mk _ a _ _ _ => a

def Postsubmit.maxConcurrency : Postsubmit → Int
  | .mk _ _ mc _ _ => mc

def Postsubmit.spec : Postsubmit → Option PodSpec
  | .mk _ _ _ sp _ => sp

def Postsubmit.runAfterSuccess : Postsubmit → List Postsubmit
  | .mk _ _ _ _ ras => ras

/-- Modelled from the spec: config.Periodic — name, agent, optional
container execution template, and the run-after-success chain of further
periodics. -/
inductive Periodic where
  | mk (name : String) (agent : String) (spec : Option PodSpec)
      (runAfterSuccess : List Periodic)

def Periodic.name : Periodic → String
  | .mk n _ _ _ => n

def Periodic.agent : Periodic → String
  | .mk _ a _ _ => a

def Periodic.spec : Periodic → Option PodSpec
  | .mk _ _ sp _ => sp

def Periodic.runAfterSuccess : Periodic → List Periodic
  | .mk _ _ _ ras => ras

/-- Modelled from the spec: the zero PodSpec value; it stands in for the
silently degenerate zero-value container execution template that the spec
(sections 4.1 and 9) describes for a container-agent template whose
template pointer is absent. -/
def zeroPodSpec : PodSpec := ⟨"", []⟩


mutual

/-- PresubmitSpec initializes a ProwJobSpec for a given presubmit job
(pjutil.go, PresubmitSpec): presubmit type tag, name, refs, report =
not skip-report, context, rerun command, max concurrency, the agent, the
pod spec if and only if the agent is the container-based agent, and the
recursively built run-after-success chain with the same refs. -/
def PresubmitSpec : Presubmit → Refs → ProwJobSpec
  | .mk name agent context rerunCommand skipReport maxConcurrency spec ras, refs =>
    ProwJobSpec.mk .presubmitJob name refs (!skipReport) context rerunCommand
      maxConcurrency agent
      (if agent = kubernetesAgent then some (spec.getD zeroPodSpec) else none)
      (PresubmitSpecList ras refs)

/-- PresubmitSpecList renders the loop in PresubmitSpec that appends
PresubmitSpec(nextP, refs) for each follow-up template, in order. -/
def PresubmitSpecList : List Presubmit → Refs → List ProwJobSpec
  | [], _ => []
  | p :: ps, refs => PresubmitSpec p refs :: PresubmitSpecList ps refs

end

mutual

/-- PostsubmitSpec initializes a ProwJobSpec for a given postsubmit job
(pjutil.go, PostsubmitSpec). -/
def PostsubmitSpec : Postsubmit → Refs → ProwJobSpec
  | .mk name agent maxConcurrency spec ras, refs =>
    ProwJobSpec.mk .postsubmitJob name refs false "" "" maxConcurrency agent
      (if agent = kubernetesAgent then some (spec.getD zeroPodSpec) else none)
      (PostsubmitSpecList ras refs)

/-- PostsubmitSpecList renders the loop in PostsubmitSpec that appends
PostsubmitSpec(nextP, refs) for each follow-up template, in order. -/
def PostsubmitSpecList : List Postsubmit → Refs → List ProwJobSpec
  | [], _ => []
  | p :: ps, refs => PostsubmitSpec p refs :: PostsubmitSpecList ps refs

end

mutual

/-- PeriodicSpec initializes a ProwJobSpec for a given periodic job
(pjutil.go, PeriodicSpec); it takes no refs, so the spec carries the zero
Refs value. -/
def PeriodicSpec : Periodic → ProwJobSpec
  | .mk name agent spec ras =>
    ProwJobSpec.mk .periodicJob name emptyRefs false "" "" 0 agent
      (if agent = kubernetesAgent then some (spec.getD zeroPodSpec) else none)
      (PeriodicSpecList ras)

/-- PeriodicSpecList renders the loop in PeriodicSpec that appends
PeriodicSpec(nextP) for each follow-up template, in order. -/
def PeriodicSpecList : List Periodic → List ProwJobSpec
  | [] => []
  | p :: ps => PeriodicSpec p :: PeriodicSpecList ps

end

mutual

/-- BatchSpec initializes a ProwJobSpec for a given batch job and ref spec
(pjutil.go, BatchSpec): batch type tag, name, refs, and the reporting
context (needed by the submit queue), with no report flag or rerun
command. -/
def BatchSpec : Presubmit → Refs → ProwJobSpec
  | .mk name agent context _rerunCommand _skipReport _maxConcurrency spec ras, refs =>
    ProwJobSpec.mk .batchJob name refs false context "" 0 agent
      (if agent = kubernetesAgent then some (spec.getD zeroPodSpec) else none)
      (BatchSpecList ras refs)

/-- BatchSpecList renders the loop in BatchSpec that appends
BatchSpec(nextP, refs) for each follow-up template, in order. -/
def BatchSpecList : List Presubmit → Refs → List ProwJobSpec
  | [], _ => []
  | p :: ps, refs => BatchSpec p refs :: BatchSpecList ps refs

end

/-- EnvForSpec returns the mapping of environment variables to their values
for a job spec (pjutil.go, EnvForSpec). JOB_NAME is always set; a Periodic
spec returns immediately; otherwise the five refs-derived variables are
added; a Postsubmit or Batch spec then returns; a Presubmit spec finally
adds PULL_NUMBER and PULL_PULL_SHA from the first pull descriptor. Reading
the first pull descriptor of an empty pulls list is a fatal out-of-range
access in Go, rendered here as none. -/
def EnvForSpec (spec : ProwJobSpec) : Option (List (String × String)) :=
  let env := [("JOB_NAME", spec.job)]
  if spec.type = JobType.periodicJob then
    some env
  else
    let env := mapInsert env "REPO_OWNER" spec.refs.org
    let env := mapInsert env "REPO_NAME" spec.refs.repo
    let env := mapInsert env "PULL_BASE_REF" spec.refs.baseRef
    let env := mapInsert env "PULL_BASE_SHA" spec.refs.baseSHA
    let env := mapInsert env "PULL_REFS" spec.refs.refString
    if spec.type = JobType.postsubmitJob ∨ spec.type = JobType.batchJob then
      some env
    else
      match spec.refs.pulls with
      | [] => none
      | pu :: _ =>
        let env := mapInsert env "PULL_NUMBER" (toString pu.number)
        let env := mapInsert env "PULL_PULL_SHA" pu.sha
        some env

/-- kubeEnv transforms a mapping of environment variables into its
serialized form for a PodSpec (pjutil.go, kubeEnv); the Go map's
unspecified iteration order is rendered as the insertion order of the
association-list map model. -/
def kubeEnv (environment : List (String × String)) : List EnvVar :=
  environment.map (fun kv => ⟨kv.1, kv.2⟩)

/-- Modelled from the spec: the keys of the controller-owned labels and the
job-name annotation written on the execution unit (the kube constants
CreatedByProw, ProwJobTypeLabel and the job-name annotation key are outside
the source slice; their exact key strings are immaterial here). -/
def createdByProw : String := "created-by-prow"

/-- Modelled from the spec: the key of the controller-owned job-type label
on the execution unit. -/
def prowJobTypeLabel : String := "prow.k8s.io/type"

/-- Modelled from the spec: the key of the job-name annotation on the
execution unit. -/
def jobNameAnnKey : String := "prow.k8s.io/job"

/-- podContainers renders the container loop of ProwJobToPod: each original
container at index i is copied, renamed to "<name>-<i>", and given the
serialized environment appended after its existing entries. The loop in the
source appends the copy and then updates the just-appended element in
place, which is the same as appending the updated copy. -/
def podContainers (nm : String) (extra : List EnvVar) : Nat → List Container → List Container
  | _, [] => []
  | i, c :: rest =>
    { c with name := nm ++ "-" ++ toString i, env := c.env ++ extra } ::
      podContainers nm extra (i + 1) rest

/-- ProwJobToPod converts a ProwJob to the Pod that will run the tests
(pjutil.go, ProwJobToPod): the environment from EnvForSpec with
BUILD_NUMBER overlaid, a copy of the spec's pod spec with restart policy
forced to Never and the containers rebuilt by podContainers, the instance's
labels plus the two controller-owned labels, and the job-name annotation.
The fatal path of EnvForSpec propagates as none. -/
def ProwJobToPod (pj : ProwJob) (buildID : String) : Option Pod :=
  match EnvForSpec pj.spec with
  | none => none
  | some env0 =>
    let env := mapInsert env0 "BUILD_NUMBER" buildID
    let spec0 := pj.spec.podSpec.getD zeroPodSpec
    let spec1 : PodSpec :=
      { spec0 with
        restartPolicy := "Never"
        containers := podContainers pj.metadata.name (kubeEnv env) 0 spec0.containers }
    let podLabels :=
      mapInsert (mapInsert pj.metadata.labels createdByProw "true")
        prowJobTypeLabel pj.spec.type.asString
    some
      { metadata :=
          { name := pj.metadata.name
            labels := podLabels
            annotations := [(jobNameAnnKey, pj.spec.job)] }
        spec := spec1 }

/-- PartitionPending separates the provided prowjobs into pending and
non-pending (pjutil.go, PartitionPending). The two result channels are
rendered as the two lists of elements in the order they are sent; the
pending-count pass only sizes the channels and has no semantic effect. -/
def PartitionPending (pjs : List ProwJob) : List ProwJob × List ProwJob :=
  pjs.foldl
    (fun acc pj =>
      if pj.status.state = ProwJobState.pendingState then (acc.1 ++ [pj], acc.2)
      else (acc.1, acc.2 ++ [pj]))
    ([], [])

/-- Modelled from the spec: the zero ProwJobSpec value (Go's zero value);
GetLatestPeriodics only ever reads the start time of a zero instance, so
the choice of tag here is immaterial. -/
def zeroProwJobSpec : ProwJobSpec :=
  ProwJobSpec.mk .periodicJob "" emptyRefs false "" "" 0 "" none []

/-- Modelled from the spec: the zero ProwJob value that a Go map read
returns for a missing key; its start time is the zero instant. -/
def zeroProwJob : ProwJob :=
  { apiVersion := ""
    kind := ""
    metadata := ⟨"", [], []⟩
    spec := zeroProwJobSpec
    status := ⟨0, .triggeredState⟩ }

/-- latestStep is the loop body of GetLatestPeriodics: skip a non-periodic
job; otherwise admit the job when its start time is strictly after the
stored entry's start time (a missing entry reads as the zero ProwJob, start
time 0). -/
def latestStep (latestJobs : List (String × ProwJob)) (j : ProwJob) :
    List (String × ProwJob) :=
  if j.spec.type ≠ JobType.periodicJob then latestJobs
  else
    if ((mapLookup latestJobs j.spec.job).getD zeroProwJob).status.startTime
        < j.status.startTime then
      mapInsert latestJobs j.spec.job j
    else latestJobs

/-- GetLatestPeriodics filters the provided prowjobs and returns a map of
periodic job names to their latest prowjobs (pjutil.go,
GetLatestPeriodics). -/
def GetLatestPeriodics (pjs : List ProwJob) : List (String × ProwJob) :=
  pjs.foldl latestStep []

mutual

/-- Decidable equality of job specs, by recursion through the nested
run-after-success lists. -/
def ProwJobSpec.decEq : (a b : ProwJobSpec) → Decidable (a = b)
  | .mk t1 j1 r1 rep1 c1 rc1 mc1 a1 ps1 ras1, .mk t2 j2 r2 rep2 c2 rc2 mc2 a2 ps2 ras2 =>
    if h1 : t1 = t2 then
      if h2 : j1 = j2 then
        if h3 : r1 = r2 then
          if h4 : rep1 = rep2 then
            if h5 : c1 = c2 then
              if h6 : rc1 = rc2 then
                if h7 : mc1 = mc2 then
                  if h8 : a1 = a2 then
                    if h9 : ps1 = ps2 then
                      match ProwJobSpec.decEqList ras1 ras2 with
                      | isTrue h10 => isTrue (by subst h1 h2 h3 h4 h5 h6 h7 h8 h9 h10; rfl)
                      | isFalse h10 => isFalse (fun heq => by cases heq; exact h10 rfl)
                    else isFalse (fun heq => by cases heq; exact h9 rfl)
                  else isFalse (fun heq => by cases heq; exact h8 rfl)
                else isFalse (fun heq => by cases heq; exact h7 rfl)
              else isFalse (fun heq => by cases heq; exact h6 rfl)
            else isFalse (fun heq => by cases heq; exact h5 rfl)
          else isFalse (fun heq => by cases heq; exact h4 rfl)
        else isFalse (fun heq => by cases heq; exact h3 rfl)
      else isFalse (fun heq => by cases heq; exact h2 rfl)
    else isFalse (fun heq => by cases heq; exact h1 rfl)

/-- Decidable equality of job spec lists. -/
def ProwJobSpec.decEqList : (xs ys : List ProwJobSpec) → Decidable (xs = ys)
  | [], [] => isTrue rfl
  | [], _ :: _ => isFalse (fun heq => by cases heq)
  | _ :: _, [] => isFalse (fun heq => by cases heq)
  | x :: xs, y :: ys =>
    match ProwJobSpec.decEq x y, ProwJobSpec.decEqList xs ys with
    | isTrue h1, isTrue h2 => isTrue (by rw [h1, h2])
    | isFalse h1, _ => isFalse (fun heq => by cases heq; exact h1 rfl)
    | _, isFalse h2 => isFalse (fun heq => by cases heq; exact h2 rfl)

end

instance : DecidableEq ProwJobSpec := ProwJobSpec.decEq

deriving instance DecidableEq for ProwJob

deriving instance DecidableEq for Pod

/-- tPeriodicJob builds a concrete periodic job instance used by the
counterexamples and witnesses below: instance name nm, job name jobName,
start time t. -/
def tPeriodicJob (nm jobName : String) (t : Nat) : ProwJob :=
  { apiVersion := "prow.k8s.io/v1"
    kind := "ProwJob"
    metadata := ⟨nm, [], []⟩
    spec := ProwJobSpec.mk .periodicJob jobName emptyRefs false "" "" 0 "" none []
    status := ⟨t, .triggeredState⟩ }

mutual

/-- specDescendants lists a job spec together with every spec reachable
through run-after-success chains, at every depth. -/
def specDescendants : ProwJobSpec → List ProwJobSpec
  | .mk t j r rep c rc mc a ps ras =>
    ProwJobSpec.mk t j r rep c rc mc a ps ras :: specDescendantsList ras

/-- specDescendantsList concatenates the descendants of each spec in a
list, in order. -/
def specDescendantsList : List ProwJobSpec → List ProwJobSpec
  | [] => []
  | s :: rest => specDescendants s ++ specDescendantsList rest

end

/-- tRefs is a concrete source-refs value used by the witnesses below. -/
def tRefs : Refs := ⟨"kubernetes", "test-infra", "master", "abc123", [⟨42, "def456"⟩]⟩

/-- tPodSpec is a concrete container execution template used by the
witnesses below; its container carries one pre-existing environment
entry. -/
def tPodSpec : PodSpec := ⟨"Always", [⟨"test", "img", [⟨"PRESET", "1"⟩]⟩]⟩

/-- tChildPresubmit is a concrete follow-up presubmit template with no
further follow-ups. -/
def tChildPresubmit : Presubmit :=
  .mk "child" "jenkins" "child-ctx" "/test child" false 0 none []

/-- tParentPresubmit is a concrete presubmit template carrying
tChildPresubmit as its single follow-up. -/
def tParentPresubmit : Presubmit :=
  .mk "parent" "kubernetes" "parent-ctx" "/test parent" false 2 (some tPodSpec)
    [tChildPresubmit]

/-- tPresubmitSpec is a concrete presubmit job spec with one pull
descriptor. -/
def tPresubmitSpec : ProwJobSpec :=
  ProwJobSpec.mk .presubmitJob "ps-job" tRefs true "ctx" "/test all" 1
    "jenkins" none []

/-- tEmptyPullsSpec is a concrete presubmit job spec whose refs carry no
pull descriptors. -/
def tEmptyPullsSpec : ProwJobSpec :=
  ProwJobSpec.mk .presubmitJob "ps-job" ⟨"kubernetes", "test-infra", "master", "abc123", []⟩
    true "ctx" "/test all" 1 "jenkins" none []

/-- tPeriodicPodJob is a concrete periodic job instance that carries
tPodSpec, used by the execution-unit witness. -/
def tPeriodicPodJob : ProwJob :=
  { apiVersion := "prow.k8s.io/v1"
    kind := "ProwJob"
    metadata := ⟨"job-xyz", [("team", "t")], []⟩
    spec := ProwJobSpec.mk .periodicJob "nightly" emptyRefs false "" "" 0
      "kubernetes" (some tPodSpec) []
    status := ⟨7, .triggeredState⟩ }

/-- tPendingJob is a concrete pending job instance used by the partition
witness. -/
def tPendingJob : ProwJob :=
  { apiVersion := "prow.k8s.io/v1"
    kind := "ProwJob"
    metadata := ⟨"p1", [], []⟩
    spec := tPresubmitSpec
    status := ⟨3, .pendingState⟩ }

/-- LatestInv is the loop invariant of GetLatestPeriodics over the
processed prefix l and the accumulated map m: the map's keys are unique;
every entry reachable by lookup is a periodic instance from l, keyed by its
own job name, with a strictly positive start time that is maximal among the
same-named periodic instances of l; and every periodic instance of l with a
strictly positive start time has an entry under its job name. -/
def LatestInv (l : List ProwJob) (m : List (String × ProwJob)) : Prop :=
  ((m.map Prod.fst).Nodup) ∧
  (∀ name j, mapLookup m name = some j →
    j.spec.type = JobType.periodicJob ∧ j.spec.job = name ∧ j ∈ l ∧
    0 < j.status.startTime ∧
    ∀ j2 ∈ l, j2.spec.type = JobType.periodicJob → j2.spec.job = name →
      j2.status.startTime ≤ j.status.startTime) ∧
  (∀ j ∈ l, j.spec.type = JobType.periodicJob → 0 < j.status.startTime →
    (mapLookup m j.spec.job).isSome = true)

theorem mapLookup_mapInsert {α : Type} (m : List (String × α)) (k k1 : String) (v : α) :
    mapLookup (mapInsert m k v) k1 = if k = k1 then some v else mapLookup m k1 := by
  induction m with
  | nil => simp [mapInsert, mapLookup]
  | cons hd tl ih =>
    obtain ⟨k0, v0⟩ := hd
    by_cases h0 : k0 = k
    · subst h0
      simp [mapInsert, mapLookup]
      split <;> simp_all [mapLookup]
    · simp [mapInsert, h0, mapLookup]
      by_cases h1 : k0 = k1
      · subst h1
        have : ¬ k = k0 := fun h => h0 h.symm
        simp [this]
      · simp [h1, ih]

theorem mem_keys_mapInsert {α : Type} (m : List (String × α)) (k k2 : String) (v : α)
    (h : k2 ∈ (mapInsert m k v).map Prod.fst) : k2 ∈ m.map Prod.fst ∨ k2 = k := by
  induction m with
  | nil =>
    right
    rw [show mapInsert [] k v = [(k, v)] from rfl] at h
    exact List.mem_singleton.mp h
  | cons hd tl ih =>
    obtain ⟨k0, v0⟩ := hd
    by_cases h0 : k0 = k
    · subst h0
      rw [show mapInsert ((k0, v0) :: tl) k0 v = (k0, v) :: tl from by simp [mapInsert]] at h
      rcases List.mem_cons.mp h with rfl | h1
      · right; rfl
      · left; exact List.mem_cons_of_mem _ h1
    · rw [show mapInsert ((k0, v0) :: tl) k v = (k0, v0) :: mapInsert tl k v from by
        simp [mapInsert, h0]] at h
      rcases List.mem_cons.mp h with rfl | h1
      · left; exact List.mem_cons_self _ _
      · rcases ih h1 with h2 | h2
        · left; exact List.mem_cons_of_mem _ h2
        · right; exact h2

theorem keys_nodup_mapInsert {α : Type} (m : List (String × α)) (k : String) (v : α)
    (hm : (m.map Prod.fst).Nodup) : ((mapInsert m k v).map Prod.fst).Nodup := by
  induction m with
  | nil => simp [mapInsert]
  | cons hd tl ih =>
    obtain ⟨k0, v0⟩ := hd
    rw [List.map_cons, List.nodup_cons] at hm
    by_cases h0 : k0 = k
    · subst h0
      rw [show mapInsert ((k0, v0) :: tl) k0 v = (k0, v) :: tl from by simp [mapInsert]]
      rw [List.map_cons, List.nodup_cons]
      exact hm
    · rw [show mapInsert ((k0, v0) :: tl) k v = (k0, v0) :: mapInsert tl k v from by
        simp [mapInsert, h0]]
      rw [List.map_cons, List.nodup_cons]
      refine ⟨fun hk2 => ?_, ih hm.2⟩
      rcases mem_keys_mapInsert tl k k0 v hk2 with h1 | h1
      · exact hm.1 h1
      · exact h0 h1

theorem mapLookup_of_mem_nodup {α : Type} (m : List (String × α))
    (hm : (m.map Prod.fst).Nodup) (e : String × α) (he : e ∈ m) :
    mapLookup m e.1 = some e.2 := by
  induction m with
  | nil => simp at he
  | cons hd tl ih =>
    obtain ⟨k0, v0⟩ := hd
    rw [List.map_cons, List.nodup_cons] at hm
    rcases List.mem_cons.mp he with rfl | he1
    · simp [mapLookup]
    · have hne : k0 ≠ e.1 := by
        intro h
        have h2 := List.mem_map_of_mem Prod.fst he1
        rw [← h] at h2
        exact hm.1 h2
      simp only [mapLookup, if_neg hne]
      exact ih hm.2 he1

theorem latestStep_eq_of_not_periodic (m : List (String × ProwJob)) (j : ProwJob)
    (h : j.spec.type ≠ JobType.periodicJob) : latestStep m j = m := by
  simp [latestStep, h]

theorem latestStep_eq_insert (m : List (String × ProwJob)) (j : ProwJob)
    (hper : j.spec.type = JobType.periodicJob)
    (hlt : ((mapLookup m j.spec.job).getD zeroProwJob).status.startTime
      < j.status.startTime) :
    latestStep m j = mapInsert m j.spec.job j := by
  simp [latestStep, hper, hlt]

theorem latestStep_eq_same (m : List (String × ProwJob)) (j : ProwJob)
    (hper : j.spec.type = JobType.periodicJob)
    (hge : ¬ ((mapLookup m j.spec.job).getD zeroProwJob).status.startTime
      < j.status.startTime) :
    latestStep m j = m := by
  simp [latestStep, hper, hge]

theorem latestStep_inv (l : List ProwJob) (m : List (String × ProwJob)) (j : ProwJob)
    (h : LatestInv l m) : LatestInv (l ++ [j]) (latestStep m j) := by
  obtain ⟨hnd, hval, hcov⟩ := h
  by_cases hper : j.spec.type = JobType.periodicJob
  · by_cases hlt : ((mapLookup m j.spec.job).getD zeroProwJob).status.startTime
        < j.status.startTime
    · rw [latestStep_eq_insert m j hper hlt]
      refine ⟨keys_nodup_mapInsert m _ j hnd, ?_, ?_⟩
      · intro name j3 hlook
        rw [mapLookup_mapInsert] at hlook
        by_cases hk : j.spec.job = name
        · rw [if_pos hk] at hlook
          obtain rfl : j = j3 := by injection hlook
          refine ⟨hper, hk, List.mem_append_right l (List.mem_singleton.mpr rfl),
            Nat.lt_of_le_of_lt (Nat.zero_le _) hlt, ?_⟩
          intro j2 hj2 hj2per hj2name
          rcases List.mem_append.mp hj2 with hj2l | hj2r
          · cases hs : mapLookup m name with
            | some v =>
              have hmax := (hval name v hs).2.2.2.2 j2 hj2l hj2per hj2name
              have hvlt : v.status.startTime < j.status.startTime := by
                rw [hk, hs] at hlt
                exact hlt
              exact Nat.le_of_lt (Nat.lt_of_le_of_lt hmax hvlt)
            | none =>
              by_cases hz : 0 < j2.status.startTime
              · have := hcov j2 hj2l hj2per hz
                rw [hj2name, hs] at this
                simp at this
              · omega
          · obtain rfl := List.mem_singleton.mp hj2r
            exact Nat.le_refl _
        · rw [if_neg hk] at hlook
          obtain ⟨h1, h2, h3, h4, h5⟩ := hval name j3 hlook
          refine ⟨h1, h2, List.mem_append_left _ h3, h4, ?_⟩
          intro j2 hj2 hj2per hj2name
          rcases List.mem_append.mp hj2 with hj2l | hj2r
          · exact h5 j2 hj2l hj2per hj2name
          · obtain rfl := List.mem_singleton.mp hj2r
            exact absurd hj2name (fun hh => hk hh)
      · intro j2 hj2 hj2per hz
        rw [mapLookup_mapInsert]
        rcases List.mem_append.mp hj2 with hj2l | hj2r
        · by_cases hk : j.spec.job = j2.spec.job
          · rw [if_pos hk]; rfl
          · rw [if_neg hk]; exact hcov j2 hj2l hj2per hz
        · obtain rfl := List.mem_singleton.mp hj2r
          rw [if_pos rfl]; rfl
    · rw [latestStep_eq_same m j hper hlt]
      refine ⟨hnd, ?_, ?_⟩
      · intro name j3 hlook
        obtain ⟨h1, h2, h3, h4, h5⟩ := hval name j3 hlook
        refine ⟨h1, h2, List.mem_append_left _ h3, h4, ?_⟩
        intro j2 hj2 hj2per hj2name
        rcases List.mem_append.mp hj2 with hj2l | hj2r
        · exact h5 j2 hj2l hj2per hj2name
        · obtain rfl := List.mem_singleton.mp hj2r
          rw [hj2name, hlook] at hlt
          simp only [Option.getD_some] at hlt
          exact Nat.le_of_not_lt hlt
      · intro j2 hj2 hj2per hz
        rcases List.mem_append.mp hj2 with hj2l | hj2r
        · exact hcov j2 hj2l hj2per hz
        · obtain rfl := List.mem_singleton.mp hj2r
          cases hs : mapLookup m j2.spec.job with
          | some v => rfl
          | none =>
            rw [hs] at hlt
            simp [zeroProwJob] at hlt
            omega
  · rw [latestStep_eq_of_not_periodic m j hper]
    refine ⟨hnd, ?_, ?_⟩
    · intro name j3 hlook
      obtain ⟨h1, h2, h3, h4, h5⟩ := hval name j3 hlook
      refine ⟨h1, h2, List.mem_append_left _ h3, h4, ?_⟩
      intro j2 hj2 hj2per hj2name
      rcases List.mem_append.mp hj2 with hj2l | hj2r
      · exact h5 j2 hj2l hj2per hj2name
      · obtain rfl := List.mem_singleton.mp hj2r
        exact absurd hj2per hper
    · intro j2 hj2 hj2per hz
      rcases List.mem_append.mp hj2 with hj2l | hj2r
      · exact hcov j2 hj2l hj2per hz
      · obtain rfl := List.mem_singleton.mp hj2r
        exact absurd hj2per hper

theorem foldl_latestStep_inv (pjs : List ProwJob) : ∀ (l : List ProwJob)
    (m : List (String × ProwJob)), LatestInv l m →
    LatestInv (l ++ pjs) (pjs.foldl latestStep m) := by
  induction pjs with
  | nil => intro l m h; simpa using h
  | cons j rest ih =>
    intro l m h
    have h2 := ih (l ++ [j]) (latestStep m j) (latestStep_inv l m j h)
    rw [List.append_assoc] at h2
    simpa using h2

theorem getLatestPeriodics_inv (pjs : List ProwJob) :
    LatestInv pjs (GetLatestPeriodics pjs) := by
  have h0 : LatestInv [] [] := by
    refine ⟨List.nodup_nil, ?_, ?_⟩
    · intro name j h
      simp [mapLookup] at h
    · intro j h
      simp at h
  have h := foldl_latestStep_inv pjs [] [] h0
  simpa [GetLatestPeriodics] using h

theorem latestStep_startTime_ge (m : List (String × ProwJob)) (j : ProwJob)
    (hper : j.spec.type = JobType.periodicJob) :
    j.status.startTime ≤
      ((mapLookup (latestStep m j) j.spec.job).getD zeroProwJob).status.startTime := by
  by_cases hlt : ((mapLookup m j.spec.job).getD zeroProwJob).status.startTime
      < j.status.startTime
  · rw [latestStep_eq_insert m j hper hlt, mapLookup_mapInsert, if_pos rfl]
    simp
  · rw [latestStep_eq_same m j hper hlt]
    exact Nat.le_of_not_lt hlt

theorem partitionPending_foldl (pjs : List ProwJob) : ∀ (a b : List ProwJob),
    pjs.foldl
      (fun acc pj =>
        if pj.status.state = ProwJobState.pendingState then (acc.1 ++ [pj], acc.2)
        else (acc.1, acc.2 ++ [pj]))
      (a, b) =
    (a ++ pjs.filter (fun pj => decide (pj.status.state = ProwJobState.pendingState)),
     b ++ pjs.filter (fun pj => decide (¬ pj.status.state = ProwJobState.pendingState))) := by
  induction pjs with
  | nil => intro a b; simp
  | cons pj rest ih =>
    intro a b
    by_cases hp : pj.status.state = ProwJobState.pendingState
    · simp only [List.foldl_cons, if_pos hp, ih, List.filter_cons]
      simp [hp]
    · simp only [List.foldl_cons, if_neg hp, ih, List.filter_cons]
      simp [hp]

theorem podContainers_length (nm : String) (extra : List EnvVar) :
    ∀ (k : Nat) (l : List Container), (podContainers nm extra k l).length = l.length := by
  intro k l
  induction l generalizing k with
  | nil => simp [podContainers]
  | cons c rest ih => simp [podContainers, ih]

theorem podContainers_get (nm : String) (extra : List EnvVar) :
    ∀ (l : List Container) (k i : Nat) (h1 : i < (podContainers nm extra k l).length)
      (h2 : i < l.length),
      (podContainers nm extra k l).get ⟨i, h1⟩ =
        { l.get ⟨i, h2⟩ with
          name := nm ++ "-" ++ toString (k + i)
          env := (l.get ⟨i, h2⟩).env ++ extra } := by
  intro l
  induction l with
  | nil => intro k i h1 h2; simp at h2
  | cons c rest ih =>
    intro k i h1 h2
    cases i with
    | zero => simp [podContainers]
    | succ i0 =>
      have h3 : i0 < (podContainers nm extra (k + 1) rest).length := by
        rw [podContainers_length]
        exact Nat.lt_of_succ_lt_succ h2
      have h4 : i0 < rest.length := Nat.lt_of_succ_lt_succ h2
      have h5 := ih (k + 1) i0 h3 h4
      simp only [podContainers, List.get_cons_succ]
      rw [h5]
      have : k + 1 + i0 = k + (i0 + 1) := by omega
      rw [this]

theorem mem_specDescendantsList (s : ProwJobSpec) : ∀ (l : List ProwJobSpec),
    s ∈ specDescendantsList l ↔ ∃ q ∈ l, s ∈ specDescendants q := by
  intro l
  induction l with
  | nil => simp [specDescendantsList]
  | cons q rest ih =>
    simp only [specDescendantsList, List.mem_append, ih, List.mem_cons]
    constructor
    · rintro (h | ⟨q1, hq1, hs⟩)
      · exact ⟨q, Or.inl rfl, h⟩
      · exact ⟨q1, Or.inr hq1, hs⟩
    · rintro ⟨q1, rfl | hq1, hs⟩
      · exact Or.inl hs
      · exact Or.inr ⟨q1, hq1, hs⟩

theorem PresubmitSpecList_eq_map : ∀ (ps : List Presubmit) (refs : Refs),
    PresubmitSpecList ps refs = ps.map (fun q => PresubmitSpec q refs) := by
  intro ps refs
  induction ps with
  | nil => rfl
  | cons p rest ih => simp only [PresubmitSpecList, List.map_cons, ih]

theorem PostsubmitSpecList_eq_map : ∀ (ps : List Postsubmit) (refs : Refs),
    PostsubmitSpecList ps refs = ps.map (fun q => PostsubmitSpec q refs) := by
  intro ps refs
  induction ps with
  | nil => rfl
  | cons p rest ih => simp only [PostsubmitSpecList, List.map_cons, ih]

theorem PeriodicSpecList_eq_map : ∀ (ps : List Periodic),
    PeriodicSpecList ps = ps.map (fun q => PeriodicSpec q) := by
  intro ps
  induction ps with
  | nil => rfl
  | cons p rest ih => simp only [PeriodicSpecList, List.map_cons, ih]

theorem BatchSpecList_eq_map : ∀ (ps : List Presubmit) (refs : Refs),
    BatchSpecList ps refs = ps.map (fun q => BatchSpec q refs) := by
  intro ps refs
  induction ps with
  | nil => rfl
  | cons p rest ih => simp only [BatchSpecList, List.map_cons, ih]

theorem PresubmitSpec_runAfterSuccess (p : Presubmit) (refs : Refs) :
    (PresubmitSpec p refs).runAfterSuccess =
      p.runAfterSuccess.map (fun q => PresubmitSpec q refs) := by
  cases p
  simp [PresubmitSpec, PresubmitSpecList_eq_map, Presubmit.runAfterSuccess]

theorem PostsubmitSpec_runAfterSuccess (p : Postsubmit) (refs : Refs) :
    (PostsubmitSpec p refs).runAfterSuccess =
      p.runAfterSuccess.map (fun q => PostsubmitSpec q refs) := by
  cases p
  simp [PostsubmitSpec, PostsubmitSpecList_eq_map, Postsubmit.runAfterSuccess]

theorem PeriodicSpec_runAfterSuccess (p : Periodic) :
    (PeriodicSpec p).runAfterSuccess = p.runAfterSuccess.map (fun q => PeriodicSpec q) := by
  cases p
  simp [PeriodicSpec, PeriodicSpecList_eq_map, Periodic.runAfterSuccess]

theorem BatchSpec_runAfterSuccess (p : Presubmit) (refs : Refs) :
    (BatchSpec p refs).runAfterSuccess =
      p.runAfterSuccess.map (fun q => BatchSpec q refs) := by
  cases p
  simp [BatchSpec, BatchSpecList_eq_map, Presubmit.runAfterSuccess]

theorem presubmit_desc_aux : ∀ (n : Nat) (p : Presubmit), sizeOf p ≤ n →
    ∀ (refs : Refs) (s : ProwJobSpec), s ∈ specDescendants (PresubmitSpec p refs) →
    s.type = JobType.presubmitJob ∧ s.refs = refs := by
  intro n
  induction n with
  | zero =>
    intro p hp
    exfalso
    cases p
    simp [Presubmit.mk.sizeOf_spec] at hp
  | succ n ih =>
    rintro ⟨nm, ag, cx, rc, sr, mc, sp, ras⟩ hp refs s hs
    simp only [PresubmitSpec, specDescendants] at hs
    rcases List.mem_cons.mp hs with rfl | hmem
    · exact ⟨rfl, rfl⟩
    · rw [mem_specDescendantsList] at hmem
      obtain ⟨q, hq, hsq⟩ := hmem
      rw [PresubmitSpecList_eq_map] at hq
      obtain ⟨q0, hq0, rfl⟩ := List.mem_map.mp hq
      have hlt : sizeOf q0 < sizeOf (Presubmit.mk nm ag cx rc sr mc sp ras) := by
        have h1 := List.sizeOf_lt_of_mem hq0
        simp [Presubmit.mk.sizeOf_spec]
        omega
      exact ih q0 (by omega) refs s hsq

theorem postsubmit_desc_aux : ∀ (n : Nat) (p : Postsubmit), sizeOf p ≤ n →
    ∀ (refs : Refs) (s : ProwJobSpec), s ∈ specDescendants (PostsubmitSpec p refs) →
    s.type = JobType.postsubmitJob ∧ s.refs = refs := by
  intro n
  induction n with
  | zero =>
    intro p hp
    exfalso
    cases p
    simp [Postsubmit.mk.sizeOf_spec] at hp
  | succ n ih =>
    rintro ⟨nm, ag, mc, sp, ras⟩ hp refs s hs
    simp only [PostsubmitSpec, specDescendants] at hs
    rcases List.mem_cons.mp hs with rfl | hmem
    · exact ⟨rfl, rfl⟩
    · rw [mem_specDescendantsList] at hmem
      obtain ⟨q, hq, hsq⟩ := hmem
      rw [PostsubmitSpecList_eq_map] at hq
      obtain ⟨q0, hq0, rfl⟩ := List.mem_map.mp hq
      have hlt : sizeOf q0 < sizeOf (Postsubmit.mk nm ag mc sp ras) := by
        have h1 := List.sizeOf_lt_of_mem hq0
        simp [Postsubmit.mk.sizeOf_spec]
        omega
      exact ih q0 (by omega) refs s hsq

theorem periodic_desc_aux : ∀ (n : Nat) (p : Periodic), sizeOf p ≤ n →
    ∀ (s : ProwJobSpec), s ∈ specDescendants (PeriodicSpec p) →
    s.type = JobType.periodicJob ∧ s.refs = emptyRefs := by
  intro n
  induction n with
  | zero =>
    intro p hp
    exfalso
    cases p
    simp [Periodic.mk.sizeOf_spec] at hp
  | succ n ih =>
    rintro ⟨nm, ag, sp, ras⟩ hp s hs
    simp only [PeriodicSpec, specDescendants] at hs
    rcases List.mem_cons.mp hs with rfl | hmem
    · exact ⟨rfl, rfl⟩
    · rw [mem_specDescendantsList] at hmem
      obtain ⟨q, hq, hsq⟩ := hmem
      rw [PeriodicSpecList_eq_map] at hq
      obtain ⟨q0, hq0, rfl⟩ := List.mem_map.mp hq
      have hlt : sizeOf q0 < sizeOf (Periodic.mk nm ag sp ras) := by
        have h1 := List.sizeOf_lt_of_mem hq0
        simp [Periodic.mk.sizeOf_spec]
        omega
      exact ih q0 (by omega) s hsq

theorem batch_desc_aux : ∀ (n : Nat) (p : Presubmit), sizeOf p ≤ n →
    ∀ (refs : Refs) (s : ProwJobSpec), s ∈ specDescendants (BatchSpec p refs) →
    s.type = JobType.batchJob ∧ s.refs = refs := by
  intro n
  induction n with
  | zero =>
    intro p hp
    exfalso
    cases p
    simp [Presubmit.mk.sizeOf_spec] at hp
  | succ n ih =>
    rintro ⟨nm, ag, cx, rc, sr, mc, sp, ras⟩ hp refs s hs
    simp only [BatchSpec, specDescendants] at hs
    rcases List.mem_cons.mp hs with rfl | hmem
    · exact ⟨rfl, rfl⟩
    · rw [mem_specDescendantsList] at hmem
      obtain ⟨q, hq, hsq⟩ := hmem
      rw [BatchSpecList_eq_map] at hq
      obtain ⟨q0, hq0, rfl⟩ := List.mem_map.mp hq
      have hlt : sizeOf q0 < sizeOf (Presubmit.mk nm ag cx rc sr mc sp ras) := by
        have h1 := List.sizeOf_lt_of_mem hq0
        simp [Presubmit.mk.sizeOf_spec]
        omega
      exact ih q0 (by omega) refs s hsq

/-- C1, counterexample: the claim says that when two Periodic instances of
the same job name carry exactly equal start times, GetLatestPeriodics maps
the name to the later-in-input instance. On the concrete input of two
periodics named foo with equal start time 5, the result maps foo to the
first instance, not the second, refuting the claim as stated. -/
theorem getLatestPeriodics_tie_counterexample :
    mapLookup (GetLatestPeriodics
        [tPeriodicJob "first" "foo" 5, tPeriodicJob "second" "foo" 5]) "foo"
      = some (tPeriodicJob "first" "foo" 5) ∧
    mapLookup (GetLatestPeriodics
        [tPeriodicJob "first" "foo" 5, tPeriodicJob "second" "foo" 5]) "foo"
      ≠ some (tPeriodicJob "second" "foo" 5) := by
  decide

theorem latestStep_lookup_mono (m : List (String × ProwJob)) (j : ProwJob) (name : String) :
    ((mapLookup m name).getD zeroProwJob).status.startTime ≤
      ((mapLookup (latestStep m j) name).getD zeroProwJob).status.startTime := by
  by_cases hper : j.spec.type = JobType.periodicJob
  · by_cases hlt : ((mapLookup m j.spec.job).getD zeroProwJob).status.startTime
        < j.status.startTime
    · rw [latestStep_eq_insert m j hper hlt, mapLookup_mapInsert]
      by_cases hk : j.spec.job = name
      · rw [if_pos hk, Option.getD_some, ← hk]
        exact Nat.le_of_lt hlt
      · rw [if_neg hk]
    · rw [latestStep_eq_same m j hper hlt]
  · rw [latestStep_eq_of_not_periodic m j hper]

theorem foldl_latestStep_lookup_mono (l : List ProwJob) : ∀ (m : List (String × ProwJob))
    (name : String),
    ((mapLookup m name).getD zeroProwJob).status.startTime ≤
      ((mapLookup (l.foldl latestStep m) name).getD zeroProwJob).status.startTime := by
  induction l with
  | nil => intro m name; exact Nat.le_refl _
  | cons j rest ih =>
    intro m name
    exact Nat.le_trans (latestStep_lookup_mono m j name) (ih (latestStep m j) name)

/-- C1 (amended): on an exact start-time tie between two Periodic instances
of the same job name, anywhere in the input, the later-in-input instance
never overwrites the earlier one — the admission test is strictly
greater-than and the stored start time per name never decreases over the
iteration, so the later duplicate is skipped and the result is the same as
if it were absent from the input. -/
theorem getLatestPeriodics_tie_keeps_earlier (pre mid post : List ProwJob) (j1 j2 : ProwJob)
    (h1 : j1.spec.type = JobType.periodicJob) (h2 : j2.spec.type = JobType.periodicJob)
    (hname : j2.spec.job = j1.spec.job)
    (htime : j2.status.startTime = j1.status.startTime) :
    GetLatestPeriodics (pre ++ j1 :: mid ++ j2 :: post)
      = GetLatestPeriodics (pre ++ j1 :: mid ++ post) := by
  unfold GetLatestPeriodics
  simp only [List.foldl_append, List.foldl_cons]
  congr 1
  apply latestStep_eq_same _ j2 h2
  have ha := latestStep_startTime_ge (List.foldl latestStep [] pre) j1 h1
  have hb := foldl_latestStep_lookup_mono mid
    (latestStep (List.foldl latestStep [] pre) j1) j1.spec.job
  rw [hname, htime]
  exact not_lt.mpr (Nat.le_trans ha hb)

/-- C1, witness: the amended statement at a concrete input where another
job separates the two tied same-named periodics. -/
theorem getLatestPeriodics_tie_keeps_earlier_witness :
    GetLatestPeriodics [tPeriodicJob "first" "foo" 5, tPeriodicJob "x" "bar" 1,
        tPeriodicJob "second" "foo" 5]
      = GetLatestPeriodics [tPeriodicJob "first" "foo" 5, tPeriodicJob "x" "bar" 1] :=
  getLatestPeriodics_tie_keeps_earlier [] [tPeriodicJob "x" "bar" 1] []
    (tPeriodicJob "first" "foo" 5) (tPeriodicJob "second" "foo" 5) rfl rfl rfl rfl

/-- C2: EnvForSpec returns exactly these key sets by job type — for
Periodic exactly JOB_NAME; for Postsubmit and Batch exactly JOB_NAME plus
the five refs-derived variables and no pull-specific keys; for Presubmit
those six plus PULL_NUMBER (decimal string of the first pull descriptor's
number) and PULL_PULL_SHA (the first pull descriptor's SHA), with each
value drawn from the corresponding spec or refs field. -/
theorem envForSpec_keys (s : ProwJobSpec) :
    (s.type = JobType.periodicJob → EnvForSpec s = some [("JOB_NAME", s.job)]) ∧
    (s.type = JobType.postsubmitJob ∨ s.type = JobType.batchJob →
      EnvForSpec s = some [("JOB_NAME", s.job), ("REPO_OWNER", s.refs.org),
        ("REPO_NAME", s.refs.repo), ("PULL_BASE_REF", s.refs.baseRef),
        ("PULL_BASE_SHA", s.refs.baseSHA), ("PULL_REFS", s.refs.refString)]) ∧
    (∀ (pu : Pull) (rest : List Pull), s.type = JobType.presubmitJob →
      s.refs.pulls = pu :: rest →
      EnvForSpec s = some [("JOB_NAME", s.job), ("REPO_OWNER", s.refs.org),
        ("REPO_NAME", s.refs.repo), ("PULL_BASE_REF", s.refs.baseRef),
        ("PULL_BASE_SHA", s.refs.baseSHA), ("PULL_REFS", s.refs.refString),
        ("PULL_NUMBER", toString pu.number), ("PULL_PULL_SHA", pu.sha)]) := by
  refine ⟨?_, ?_, ?_⟩
  · intro h
    simp [EnvForSpec, h]
  · rintro (h | h) <;> simp [EnvForSpec, h, mapInsert]
  · intro pu rest hty hp
    simp [EnvForSpec, hty, hp, mapInsert]

/-- C2, witness: the Presubmit clause at a concrete spec with one pull
descriptor numbered 42 with SHA def456. -/
theorem envForSpec_keys_witness :
    EnvForSpec tPresubmitSpec = some [("JOB_NAME", "ps-job"),
      ("REPO_OWNER", "kubernetes"), ("REPO_NAME", "test-infra"),
      ("PULL_BASE_REF", "master"), ("PULL_BASE_SHA", "abc123"),
      ("PULL_REFS", tRefs.refString), ("PULL_NUMBER", "42"),
      ("PULL_PULL_SHA", "def456")] :=
  (envForSpec_keys tPresubmitSpec).2.2 ⟨42, "def456"⟩ [] rfl rfl

/-- C3: for every template of any of the four variants, the built spec's
run-after-success sequence is the same-variant builder mapped over the
template's follow-up sequence (same length, same order, each element built
from the corresponding follow-up template, hence recursively of the same
job-type tag), and every descendant spec at every depth carries the
variant's job-type tag and the same refs (Periodic descendants carry the
zero refs). -/
theorem buildSpec_followups (refs : Refs) :
    (∀ p : Presubmit, (PresubmitSpec p refs).runAfterSuccess =
      p.runAfterSuccess.map (fun q => PresubmitSpec q refs)) ∧
    (∀ p : Postsubmit, (PostsubmitSpec p refs).runAfterSuccess =
      p.runAfterSuccess.map (fun q => PostsubmitSpec q refs)) ∧
    (∀ p : Periodic, (PeriodicSpec p).runAfterSuccess =
      p.runAfterSuccess.map (fun q => PeriodicSpec q)) ∧
    (∀ p : Presubmit, (BatchSpec p refs).runAfterSuccess =
      p.runAfterSuccess.map (fun q => BatchSpec q refs)) ∧
    (∀ (p : Presubmit) (s : ProwJobSpec), s ∈ specDescendants (PresubmitSpec p refs) →
      s.type = JobType.presubmitJob ∧ s.refs = refs) ∧
    (∀ (p : Postsubmit) (s : ProwJobSpec), s ∈ specDescendants (PostsubmitSpec p refs) →
      s.type = JobType.postsubmitJob ∧ s.refs = refs) ∧
    (∀ (p : Periodic) (s : ProwJobSpec), s ∈ specDescendants (PeriodicSpec p) →
      s.type = JobType.periodicJob ∧ s.refs = emptyRefs) ∧
    (∀ (p : Presubmit) (s : ProwJobSpec), s ∈ specDescendants (BatchSpec p refs) →
      s.type = JobType.batchJob ∧ s.refs = refs) :=
  ⟨fun p => PresubmitSpec_runAfterSuccess p refs,
   fun p => PostsubmitSpec_runAfterSuccess p refs,
   fun p => PeriodicSpec_runAfterSuccess p,
   fun p => BatchSpec_runAfterSuccess p refs,
   fun p s hs => presubmit_desc_aux (sizeOf p) p (Nat.le_refl _) refs s hs,
   fun p s hs => postsubmit_desc_aux (sizeOf p) p (Nat.le_refl _) refs s hs,
   fun p s hs => periodic_desc_aux (sizeOf p) p (Nat.le_refl _) s hs,
   fun p s hs => batch_desc_aux (sizeOf p) p (Nat.le_refl _) refs s hs⟩

/-- C3, witness: a concrete presubmit template with one follow-up — the
built spec's follow-up sequence is the built follow-up, and the built
follow-up (a descendant) carries the presubmit tag and the same refs. -/
theorem buildSpec_followups_witness :
    (PresubmitSpec tParentPresubmit tRefs).runAfterSuccess
      = [PresubmitSpec tChildPresubmit tRefs] ∧
    (PresubmitSpec tChildPresubmit tRefs).type = JobType.presubmitJob ∧
    (PresubmitSpec tChildPresubmit tRefs).refs = tRefs :=
  ⟨(buildSpec_followups tRefs).1 tParentPresubmit,
   (buildSpec_followups tRefs).2.2.2.2.1 tParentPresubmit
     (PresubmitSpec tChildPresubmit tRefs) (by decide)⟩

/-- C4: for every job instance and build identifier on which the
environment derivation succeeds, ProwJobToPod produces a pod whose restart
policy is Never and whose container at index i is a copy of the instance's
container i renamed to the instance name followed by "-" and the index,
with its environment equal to the existing entries followed by the
serialized derived environment in which BUILD_NUMBER = buildID was overlaid
last over the EnvForSpec result (no deduplication of pre-existing
entries). -/
theorem prowJobToPod_props (pj : ProwJob) (buildID : String)
    (env0 : List (String × String)) (h : EnvForSpec pj.spec = some env0) :
    ∃ pod, ProwJobToPod pj buildID = some pod ∧
      pod.spec.restartPolicy = "Never" ∧
      pod.spec.containers.length = (pj.spec.podSpec.getD zeroPodSpec).containers.length ∧
      ∀ (i : Nat) (h1 : i < pod.spec.containers.length)
        (h2 : i < (pj.spec.podSpec.getD zeroPodSpec).containers.length),
        pod.spec.containers.get ⟨i, h1⟩ =
          { (pj.spec.podSpec.getD zeroPodSpec).containers.get ⟨i, h2⟩ with
            name := pj.metadata.name ++ "-" ++ toString i
            env := ((pj.spec.podSpec.getD zeroPodSpec).containers.get ⟨i, h2⟩).env
              ++ kubeEnv (mapInsert env0 "BUILD_NUMBER" buildID) } := by
  unfold ProwJobToPod
  rw [h]
  refine ⟨_, rfl, rfl, podContainers_length _ _ 0 _, ?_⟩
  intro i h1 h2
  have hg := podContainers_get pj.metadata.name
    (kubeEnv (mapInsert env0 "BUILD_NUMBER" buildID))
    (pj.spec.podSpec.getD zeroPodSpec).containers 0 i h1 h2
  rw [Nat.zero_add] at hg
  exact hg

/-- C4, witness: on a concrete periodic instance carrying one container,
the conversion succeeds. -/
theorem prowJobToPod_props_witness :
    (ProwJobToPod tPeriodicPodJob "42").isSome = true := by
  obtain ⟨pod, hpod, _, _, _⟩ :=
    prowJobToPod_props tPeriodicPodJob "42" [("JOB_NAME", "nightly")] rfl
  rw [hpod]
  rfl

/-- C5: PartitionPending places every input instance in exactly one of the
two outputs — in the pending output if and only if its status state is
Pending — and each output is the stable filter of the input, preserving the
relative input order. -/
theorem partitionPending_spec (pjs : List ProwJob) :
    (PartitionPending pjs).1 =
      pjs.filter (fun pj => decide (pj.status.state = ProwJobState.pendingState)) ∧
    (PartitionPending pjs).2 =
      pjs.filter (fun pj => decide (¬ pj.status.state = ProwJobState.pendingState)) ∧
    ∀ pj ∈ pjs,
      (pj ∈ (PartitionPending pjs).1 ↔ pj.status.state = ProwJobState.pendingState) ∧
      (pj ∈ (PartitionPending pjs).2 ↔ ¬ pj.status.state = ProwJobState.pendingState) := by
  have h := partitionPending_foldl pjs [] []
  have h1 : (PartitionPending pjs).1 =
      pjs.filter (fun pj => decide (pj.status.state = ProwJobState.pendingState)) := by
    unfold PartitionPending
    rw [h]
    simp
  have h2 : (PartitionPending pjs).2 =
      pjs.filter (fun pj => decide (¬ pj.status.state = ProwJobState.pendingState)) := by
    unfold PartitionPending
    rw [h]
    simp
  refine ⟨h1, h2, ?_⟩
  intro pj hpj
  rw [h1, h2]
  constructor
  · simp [List.mem_filter, hpj]
  · simp [List.mem_filter, hpj]

/-- C5, witness: on a concrete two-element input, the pending instance lands
in the pending output and the non-pending one in the other output. -/
theorem partitionPending_spec_witness :
    tPendingJob ∈ (PartitionPending [tPendingJob, tPeriodicPodJob]).1 ∧
    tPeriodicPodJob ∈ (PartitionPending [tPendingJob, tPeriodicPodJob]).2 :=
  ⟨(((partitionPending_spec [tPendingJob, tPeriodicPodJob]).2.2 tPendingJob
      (by decide)).1).mpr rfl,
   (((partitionPending_spec [tPendingJob, tPeriodicPodJob]).2.2 tPeriodicPodJob
      (by decide)).2).mpr (by decide)⟩

/-- C6: whenever every Presubmit spec carries a non-empty pulls sequence,
EnvForSpec is total (the out-of-range branch is unreachable); for a
Presubmit spec with an empty pulls sequence the access to the first pull
descriptor is out of range, the fatal condition rendered as none. -/
theorem envForSpec_total (s : ProwJobSpec) :
    ((s.type = JobType.presubmitJob → s.refs.pulls ≠ []) →
      (EnvForSpec s).isSome = true) ∧
    (s.type = JobType.presubmitJob → s.refs.pulls = [] → EnvForSpec s = none) := by
  constructor
  · intro hpre
    cases hty : s.type with
    | periodicJob => simp [EnvForSpec, hty]
    | postsubmitJob => simp [EnvForSpec, hty]
    | batchJob => simp [EnvForSpec, hty]
    | presubmitJob =>
      cases hp : s.refs.pulls with
      | nil => exact absurd hp (hpre hty)
      | cons pu rest => simp [EnvForSpec, hty, hp]
  · intro hty hp
    simp [EnvForSpec, hty, hp]

/-- C6, witness: a presubmit spec with one pull succeeds; a presubmit spec
with an empty pulls sequence hits the fatal branch. -/
theorem envForSpec_total_witness :
    (EnvForSpec tPresubmitSpec).isSome = true ∧ EnvForSpec tEmptyPullsSpec = none :=
  ⟨(envForSpec_total tPresubmitSpec).1 (fun _ => by decide),
   (envForSpec_total tEmptyPullsSpec).2 rfl rfl⟩

/-- C7: for every template of any of the four variants, the built spec
carries a container execution template if and only if the template's agent
equals the container-based agent identifier, and when the agent matches and
the template's field is populated the carried template is a copy of it; for
any other agent the spec carries none, regardless of whether the template's
field was populated. -/
theorem buildSpec_podSpec :
    (∀ (p : Presubmit) (refs : Refs),
      ((PresubmitSpec p refs).podSpec.isSome = true ↔ p.agent = kubernetesAgent) ∧
      (∀ ps0 : PodSpec, p.agent = kubernetesAgent → p.spec = some ps0 →
        (PresubmitSpec p refs).podSpec = some ps0)) ∧
    (∀ (p : Postsubmit) (refs : Refs),
      ((PostsubmitSpec p refs).podSpec.isSome = true ↔ p.agent = kubernetesAgent) ∧
      (∀ ps0 : PodSpec, p.agent = kubernetesAgent → p.spec = some ps0 →
        (PostsubmitSpec p refs).podSpec = some ps0)) ∧
    (∀ p : Periodic,
      ((PeriodicSpec p).podSpec.isSome = true ↔ p.agent = kubernetesAgent) ∧
      (∀ ps0 : PodSpec, p.agent = kubernetesAgent → p.spec = some ps0 →
        (PeriodicSpec p).podSpec = some ps0)) ∧
    (∀ (p : Presubmit) (refs : Refs),
      ((BatchSpec p refs).podSpec.isSome = true ↔ p.agent = kubernetesAgent) ∧
      (∀ ps0 : PodSpec, p.agent = kubernetesAgent → p.spec = some ps0 →
        (BatchSpec p refs).podSpec = some ps0)) := by
  refine ⟨?_, ?_, ?_, ?_⟩
  · rintro ⟨nm, ag, cx, rc, sr, mc, sp, ras⟩ refs
    constructor
    · by_cases hag : ag = kubernetesAgent <;>
        simp [PresubmitSpec, Presubmit.agent, hag]
    · intro ps0 hag hsp
      rw [Presubmit.agent] at hag
      rw [Presubmit.spec] at hsp
      simp [PresubmitSpec, hag, hsp]
  · rintro ⟨nm, ag, mc, sp, ras⟩ refs
    constructor
    · by_cases hag : ag = kubernetesAgent <;>
        simp [PostsubmitSpec, Postsubmit.agent, hag]
    · intro ps0 hag hsp
      rw [Postsubmit.agent] at hag
      rw [Postsubmit.spec] at hsp
      simp [PostsubmitSpec, hag, hsp]
  · rintro ⟨nm, ag, sp, ras⟩
    constructor
    · by_cases hag : ag = kubernetesAgent <;>
        simp [PeriodicSpec, Periodic.agent, hag]
    · intro ps0 hag hsp
      rw [Periodic.agent] at hag
      rw [Periodic.spec] at hsp
      simp [PeriodicSpec, hag, hsp]
  · rintro ⟨nm, ag, cx, rc, sr, mc, sp, ras⟩ refs
    constructor
    · by_cases hag : ag = kubernetesAgent <;>
        simp [BatchSpec, Presubmit.agent, hag]
    · intro ps0 hag hsp
      rw [Presubmit.agent] at hag
      rw [Presubmit.spec] at hsp
      simp [BatchSpec, hag, hsp]

/-- C7, witness: a concrete container-agent template with a populated field
carries a copy of it, and a concrete non-container-agent template carries
none. -/
theorem buildSpec_podSpec_witness :
    (PresubmitSpec tParentPresubmit tRefs).podSpec = some tPodSpec ∧
    (PresubmitSpec tChildPresubmit tRefs).podSpec.isSome = false :=
  ⟨(buildSpec_podSpec.1 tParentPresubmit tRefs).2 tPodSpec rfl rfl,
   by
    have h := (buildSpec_podSpec.1 tChildPresubmit tRefs).1
    rw [Bool.eq_false_iff]
    intro hh
    exact absurd (h.mp hh) (by decide)⟩

/-- C8, counterexample: the claim says that for each distinct job name
among the Periodic instances of the input the result maps that name to the
instance with the latest start time; on the concrete input of a single
periodic named foo whose start time is the zero instant, the result is
empty and foo is absent, refuting the claim as stated. -/
theorem getLatestPeriodics_zero_counterexample :
    (tPeriodicJob "only" "foo" 0).spec.type = JobType.periodicJob ∧
    GetLatestPeriodics [tPeriodicJob "only" "foo" 0] = [] ∧
    mapLookup (GetLatestPeriodics [tPeriodicJob "only" "foo" 0]) "foo" = none := by
  decide

/-- C8 (amended): GetLatestPeriodics returns a map containing only Periodic
input instances, each keyed by its own job name, each with a strictly
positive start time that is maximal among the same-named Periodic instances
of the input; and a job name appears in the result if and only if some
Periodic instance of that name has a start time strictly after the zero
instant (so membership does not depend on input order), names all of whose
instances carry the zero start time being omitted. -/
theorem getLatestPeriodics_amended (pjs : List ProwJob) :
    (∀ e ∈ GetLatestPeriodics pjs, mapLookup (GetLatestPeriodics pjs) e.1 = some e.2) ∧
    (∀ (name : String) (j : ProwJob), mapLookup (GetLatestPeriodics pjs) name = some j →
      j.spec.type = JobType.periodicJob ∧ j.spec.job = name ∧ j ∈ pjs ∧
      0 < j.status.startTime ∧
      ∀ j2 ∈ pjs, j2.spec.type = JobType.periodicJob → j2.spec.job = name →
        j2.status.startTime ≤ j.status.startTime) ∧
    (∀ j ∈ pjs, j.spec.type = JobType.periodicJob → 0 < j.status.startTime →
      (mapLookup (GetLatestPeriodics pjs) j.spec.job).isSome = true) := by
  obtain ⟨hnd, hval, hcov⟩ := getLatestPeriodics_inv pjs
  exact ⟨fun e he => mapLookup_of_mem_nodup _ hnd e he, hval, hcov⟩

/-- C8, witness: a concrete periodic instance with a positive start time is
reachable in the result under its job name. -/
theorem getLatestPeriodics_amended_witness :
    (mapLookup (GetLatestPeriodics [tPeriodicJob "a" "foo" 5])
      (tPeriodicJob "a" "foo" 5).spec.job).isSome = true :=
  (getLatestPeriodics_amended [tPeriodicJob "a" "foo" 5]).2.2
    (tPeriodicJob "a" "foo" 5) (by decide) rfl (by decide)

/-- C10: every value of GetLatestPeriodics has a start time strictly after
the zero instant, so an instance whose start time equals the zero (unset)
instant never appears as a value in the result, even when it is the only
instance with its job name in the input — which is why the result can omit
job names present among the Periodic instances of the input. -/
theorem getLatestPeriodics_zero_start (pjs : List ProwJob) :
    (∀ e ∈ GetLatestPeriodics pjs, 0 < e.2.status.startTime) ∧
    (∀ j : ProwJob, j.status.startTime = 0 → ∀ e ∈ GetLatestPeriodics pjs, e.2 ≠ j) := by
  obtain ⟨hnd, hval, hcov⟩ := getLatestPeriodics_inv pjs
  have hpos : ∀ e ∈ GetLatestPeriodics pjs, 0 < e.2.status.startTime := by
    intro e he
    have hl := mapLookup_of_mem_nodup _ hnd e he
    exact (hval e.1 e.2 hl).2.2.2.1
  refine ⟨hpos, ?_⟩
  intro j hj e he heq
  have hgt := hpos e he
  rw [heq, hj] at hgt
  exact Nat.lt_irrefl 0 hgt

/-- C10, witness: the positivity clause at a concrete one-element result. -/
theorem getLatestPeriodics_zero_start_witness :
    0 < (("foo", tPeriodicJob "a" "foo" 5)).2.status.startTime :=
  (getLatestPeriodics_zero_start [tPeriodicJob "a" "foo" 5]).1
    ("foo", tPeriodicJob "a" "foo" 5) (by decide)
